import Mathlib

/-!
Verification of the ABFT (algorithm-based fault tolerance) checksum layer of the
GPU-Research-Project corpus: the checksum encoder, the checksum propagation
performed by `abft_dgemm` / `dsyrkFT` / `dpotrfFT` / `dtrsmFT`, and the
detect-and-correct kernels.

Matrices are embedded as Mathlib matrices over `ℚ` (exact arithmetic standing
in for IEEE doubles), column-major buffers with strides are embedded as
functions `ℕ → ℚ` where stride behaviour itself is at issue.  BLAS primitives
(`magma_dgemm`, `blasf77_dtrsm`, ...) are the trusted oracle of the spec; their
standard semantics is given explicitly.
-/

set_option maxHeartbeats 1000000

namespace ABFT

open Matrix

/-! ### Checksum weight vectors

The two weight vectors used throughout the corpus: the all-ones vector and the
arithmetic vector (1, 2, 3, ...).  Taken from `dpotrfFT.cpp`
(`chk1[i] = 1; chk2[i] = i + 1;`) and the `vd` weight matrix of the
`*FT` kernels. -/

/-- Weight `s r`: row `r` of weight vector `s` (`s = 0`: all ones, `s = 1`:
arithmetic sequence `1, 2, ...`). -/
def chkw (s : ℕ) (r : ℕ) : ℚ :=
  if s = 0 then 1 else (r : ℚ) + 1

/-! ### Blocked checksum encoder

`abft_dgemm` keeps, for an `(mb*nb) × n` matrix, a `(2*mb) × n` column-checksum
block: rows `2*q` and `2*q + 1` hold the two weighted column sums of row block
`q` (rows `q*nb .. q*nb + nb - 1`).  The encoder is the multiplication by the
block-diagonal weight matrix `Wchk`, exactly the GEMV/GEMM-against-`chk_v`
encode used by the corpus. -/

/-- The block weight matrix: entry `(c, r)` is `chkw (c % 2) (r % nb)` when row
`r` lies in the row block `c / 2`, and `0` otherwise. -/
def Wchk (mb nb : ℕ) : Matrix (Fin (2 * mb)) (Fin (mb * nb)) ℚ :=
  Matrix.of fun c r =>
    if (r : ℕ) / nb = (c : ℕ) / 2 then chkw ((c : ℕ) % 2) ((r : ℕ) % nb) else 0

/-- Column-checksum encoder for an `(mb*nb) × n` matrix: the `(2*mb) × n`
checksum block `Wchk * A`. -/
def colEncode (mb nb n : ℕ) (A : Matrix (Fin (mb * nb)) (Fin n) ℚ) :
    Matrix (Fin (2 * mb)) (Fin n) ℚ :=
  Wchk mb nb * A

/-- Row-checksum encoder for an `m × (qb*nb)` matrix: the `m × (2*qb)`
checksum block `A * (Wchk)ᵀ`. -/
def rowEncode (m qb nb : ℕ) (A : Matrix (Fin m) (Fin (qb * nb)) ℚ) :
    Matrix (Fin m) (Fin (2 * qb)) ℚ :=
  A * (Wchk qb nb)ᵀ

/-- The semantics of the BLAS oracle `magma_dgemm` with `transA = transB =
MagmaNoTrans`: `C := alpha * A * B + beta * C`. -/
def magmaGemmNN {m k n : ℕ} (alpha : ℚ) (A : Matrix (Fin m) (Fin k) ℚ)
    (B : Matrix (Fin k) (Fin n) ℚ) (beta : ℚ) (C : Matrix (Fin m) (Fin n) ℚ) :
    Matrix (Fin m) (Fin n) ℚ :=
  alpha • (A * B) + beta • C

/-! ### The legacy detect-and-correct kernel (`old_source_code/v2/dsyrkFT.h`)

One GPU thread per column `col`: if the recomputed first checksum `chkC1 col`
differs from the stored checksum `chksumC1 col` by more than the hard-coded
tolerance `0.1`, the thread localizes the corrupted row as
`round(diff2 / diff) - 1` and adds `chksumC1 col - chkC1 col` to that entry of
column `col`.  In the C source an out-of-range localized row is an
out-of-bounds write (undefined behaviour); the embedding writes to the entry
of the column whose index equals the localized row, hence writes nothing when
the localized row is out of range.  The C `round` (half away from zero) and
Mathlib's `round` (half up) agree on the nonnegative ratio `diff2 / diff`
divided here. -/

/-- Embedding of the `detectAndCorrectForSyrk` CUDA kernel of
`old_source_code/v2/dsyrkFT.h`.  `chksumC1`/`chksumC2` are the stored
(propagated) checksums, `chkC1`/`chkC2` the checksums recomputed from the
current data `C`. -/
def detectAndCorrectForSyrk (m n : ℕ) (C : Matrix (Fin m) (Fin n) ℚ)
    (chksumC1 chksumC2 chkC1 chkC2 : Fin n → ℚ) : Matrix (Fin m) (Fin n) ℚ :=
  Matrix.of fun i col =>
    let diff := |chkC1 col - chksumC1 col|
    if 1/10 < diff then
      let diff2 := |chkC2 col - chksumC2 col|
      let row : ℤ := round (diff2 / diff) - 1
      if (i : ℤ) = row then C i col + (chksumC1 col - chkC1 col) else C i col
    else C i col

/-- First (all-ones weight) column checksum of column `j`, as recomputed by the
corpus via GEMV against `v1 = (1, ..., 1)`. -/
def colSum1 (m n : ℕ) (C : Matrix (Fin m) (Fin n) ℚ) (j : Fin n) : ℚ :=
  ∑ i : Fin m, C i j

/-- Second (arithmetic weight) column checksum of column `j`, via
`v2 = (1, 2, ..., m)`. -/
def colSum2 (m n : ℕ) (C : Matrix (Fin m) (Fin n) ℚ) (j : Fin n) : ℚ :=
  ∑ i : Fin m, ((i : ℚ) + 1) * C i j

/-- A single additive corruption of magnitude `e` at entry `(r, j)`. -/
def corruptAt (m n : ℕ) (C : Matrix (Fin m) (Fin n) ℚ) (r : Fin m) (j : Fin n)
    (e : ℚ) : Matrix (Fin m) (Fin n) ℚ :=
  Matrix.of fun i c => if i = r ∧ c = j then C i c + e else C i c

/-! ### The checker (`abft_checker_colchk` / `abft_checker_rowchk`)

The checker implementation (`abft_checker.cpp`) is not part of the sources;
only its caller `abft_dgemm.cpp` is.  It is modelled from the spec. -/

/-- Checksum row index `2*q + s` of block `q`. -/
def idx2 (mb : ℕ) (q : Fin mb) (s : Fin 2) : Fin (2 * mb) :=
  ⟨2 * (q : ℕ) + (s : ℕ), by have := q.isLt; have := s.isLt; omega⟩

/-- Modelled from the spec: the (block, column) positions whose stored and
recomputed column checksums disagree beyond the `0.1` tolerance on both
checksum rows. -/
def colFlagged (mb nb n : ℕ) (data : Matrix (Fin (mb * nb)) (Fin n) ℚ)
    (colchk : Matrix (Fin (2 * mb)) (Fin n) ℚ) : List (Fin mb × Fin n) :=
  ((List.finRange mb).product (List.finRange n)).filter fun qj =>
    decide (1/10 < |colEncode mb nb n data (idx2 mb qj.1 0) qj.2 -
        colchk (idx2 mb qj.1 0) qj.2| ∧
      1/10 < |colEncode mb nb n data (idx2 mb qj.1 1) qj.2 -
        colchk (idx2 mb qj.1 1) qj.2|)

/-- Modelled from the spec: the single-element correction applied by the
checker at a flagged (block, column) position: the corrupted row inside the
block is localized as `round(d2/d1) - 1` and the first discrepancy is added
back to that element. -/
def colCorrectOne (mb nb n : ℕ) (data : Matrix (Fin (mb * nb)) (Fin n) ℚ)
    (colchk : Matrix (Fin (2 * mb)) (Fin n) ℚ) (qj : Fin mb × Fin n) :
    Matrix (Fin (mb * nb)) (Fin n) ℚ :=
  let d1 := colchk (idx2 mb qj.1 0) qj.2 - colEncode mb nb n data (idx2 mb qj.1 0) qj.2
  let d2 := colchk (idx2 mb qj.1 1) qj.2 - colEncode mb nb n data (idx2 mb qj.1 1) qj.2
  let rloc : ℤ := round (d2 / d1) - 1
  Matrix.of fun i c =>
    if (i : ℤ) = (qj.1 : ℤ) * nb + rloc ∧ c = qj.2 then data i c + d1
    else data i c

/-- Modelled from the spec: `abft_checker_colchk` (implementation
`abft_checker.cpp` is not under the sources; only its caller
`abft_dgemm.cpp` is).  It recomputes the column checksums fresh from the
current data into the `_r` buffer, and when exactly one (block, column) is
flagged corrects the single corrupted element; with any other number of
flagged positions the data is left unchanged.  Returns the (possibly
corrected) data and the recomputed checksum buffer. -/
def abft_checker_colchk (mb nb n : ℕ)
    (data : Matrix (Fin (mb * nb)) (Fin n) ℚ)
    (colchk : Matrix (Fin (2 * mb)) (Fin n) ℚ) :
    Matrix (Fin (mb * nb)) (Fin n) ℚ × Matrix (Fin (2 * mb)) (Fin n) ℚ :=
  (match colFlagged mb nb n data colchk with
    | [qj] => colCorrectOne mb nb n data colchk qj
    | _ => data,
   colEncode mb nb n data)

/-- Modelled from the spec: the (row, block) positions whose stored and
recomputed row checksums disagree beyond the `0.1` tolerance on both checksum
columns. -/
def rowFlagged (m qb nb : ℕ) (data : Matrix (Fin m) (Fin (qb * nb)) ℚ)
    (rowchk : Matrix (Fin m) (Fin (2 * qb)) ℚ) : List (Fin m × Fin qb) :=
  ((List.finRange m).product (List.finRange qb)).filter fun iq =>
    decide (1/10 < |rowEncode m qb nb data iq.1 (idx2 qb iq.2 0) -
        rowchk iq.1 (idx2 qb iq.2 0)| ∧
      1/10 < |rowEncode m qb nb data iq.1 (idx2 qb iq.2 1) -
        rowchk iq.1 (idx2 qb iq.2 1)|)

/-- Modelled from the spec: the single-element correction of the row-checksum
checker at a flagged (row, block) position. -/
def rowCorrectOne (m qb nb : ℕ) (data : Matrix (Fin m) (Fin (qb * nb)) ℚ)
    (rowchk : Matrix (Fin m) (Fin (2 * qb)) ℚ) (iq : Fin m × Fin qb) :
    Matrix (Fin m) (Fin (qb * nb)) ℚ :=
  let d1 := rowchk iq.1 (idx2 qb iq.2 0) - rowEncode m qb nb data iq.1 (idx2 qb iq.2 0)
  let d2 := rowchk iq.1 (idx2 qb iq.2 1) - rowEncode m qb nb data iq.1 (idx2 qb iq.2 1)
  let cloc : ℤ := round (d2 / d1) - 1
  Matrix.of fun i c =>
    if i = iq.1 ∧ (c : ℤ) = (iq.2 : ℤ) * nb + cloc then data i c + d1
    else data i c

/-- Modelled from the spec: `abft_checker_rowchk`, the row-checksum variant of
`abft_checker_colchk` (implementation not under the sources). -/
def abft_checker_rowchk (m qb nb : ℕ)
    (data : Matrix (Fin m) (Fin (qb * nb)) ℚ)
    (rowchk : Matrix (Fin m) (Fin (2 * qb)) ℚ) :
    Matrix (Fin m) (Fin (qb * nb)) ℚ × Matrix (Fin m) (Fin (2 * qb)) ℚ :=
  (match rowFlagged m qb nb data rowchk with
    | [iq] => rowCorrectOne m qb nb data rowchk iq
    | _ => data,
   rowEncode m qb nb data)

/-! ### The protected GEMM (`magma-2.0.2/magmablas/abft_dgemm.cpp`)

Embedding of `abft_dgemm` for `transA = transB = MagmaNoTrans`, the branch the
corpus takes for the trailing-matrix update: data `C` is `m × n` with
`m = mb * nb`, `n = qb * nb`, inner dimension `k = kb * nb`.  The caller's
buffers (`dA`, `dB`, `dC`, their four checksum shadows each, and the
recomputed `_r` shadows) form the state; the kernels launched on the two
streams form the trace. -/

/-- The buffer state passed to `abft_dgemm`: the three data matrices and, for
each, stored column/row checksum shadows and the recomputed `_r` buffers. -/
structure GemmSt (mb kb qb nb : ℕ) where
  A : Matrix (Fin (mb * nb)) (Fin (kb * nb)) ℚ
  B : Matrix (Fin (kb * nb)) (Fin (qb * nb)) ℚ
  C : Matrix (Fin (mb * nb)) (Fin (qb * nb)) ℚ
  A_colchk : Matrix (Fin (2 * mb)) (Fin (kb * nb)) ℚ
  A_rowchk : Matrix (Fin (mb * nb)) (Fin (2 * kb)) ℚ
  A_colchk_r : Matrix (Fin (2 * mb)) (Fin (kb * nb)) ℚ
  A_rowchk_r : Matrix (Fin (mb * nb)) (Fin (2 * kb)) ℚ
  B_colchk : Matrix (Fin (2 * kb)) (Fin (qb * nb)) ℚ
  B_rowchk : Matrix (Fin (kb * nb)) (Fin (2 * qb)) ℚ
  B_colchk_r : Matrix (Fin (2 * kb)) (Fin (qb * nb)) ℚ
  B_rowchk_r : Matrix (Fin (kb * nb)) (Fin (2 * qb)) ℚ
  C_colchk : Matrix (Fin (2 * mb)) (Fin (qb * nb)) ℚ
  C_rowchk : Matrix (Fin (mb * nb)) (Fin (2 * qb)) ℚ
  C_colchk_r : Matrix (Fin (2 * mb)) (Fin (qb * nb)) ℚ
  C_rowchk_r : Matrix (Fin (mb * nb)) (Fin (2 * qb)) ℚ

/-- One kernel launch of `abft_dgemm`: the main data GEMM (with its scalars),
the two small checksum-propagation GEMMs, or a checker invocation. -/
inductive KOp where
  | gemmData (alpha beta : ℚ)
  | gemmColchk (alpha beta : ℚ)
  | gemmRowchk (alpha beta : ℚ)
  | checkColA
  | checkRowB
  | checkColC
  | checkRowC
  deriving DecidableEq, Repr

/-- Whether a kernel launch is the main (unprotected) GEMM on the data
buffers. -/
def KOp.isData : KOp → Bool
  | KOp.gemmData _ _ => true
  | _ => false

/-- Embedding of `abft_dgemm` (`magma-2.0.2/magmablas/abft_dgemm.cpp`,
`transA = transB = MagmaNoTrans`).  In source order: under
`FT && CHECK_BEFORE` the column checksums of `A`, the row checksums of `B`,
and both checksum shadows of `C` are verified (writing the recomputed `_r`
buffers and possibly correcting the data); the main `magma_dgemm` updates `C`
unconditionally; under `FT` two smaller GEMMs propagate
`C_colchk := alpha * A_colchk * B + beta * C_colchk` and
`C_rowchk := alpha * A * B_rowchk + beta * C_rowchk`; under
`FT && CHECK_AFTER` both checksum shadows of `C` are verified again.
Returns the final state and the kernel-launch trace. -/
def abft_dgemm (mb kb qb nb : ℕ) (FT CHECK_BEFORE CHECK_AFTER : Bool)
    (alpha beta : ℚ) (st : GemmSt mb kb qb nb) :
    GemmSt mb kb qb nb × List KOp :=
  -- FT && CHECK_BEFORE: verify A (column checksums), B (row checksums), C (both)
  let st1 :=
    if FT && CHECK_BEFORE then
      let pa := abft_checker_colchk mb nb (kb * nb) st.A st.A_colchk
      let pb := abft_checker_rowchk (kb * nb) qb nb st.B st.B_rowchk
      let pc1 := abft_checker_colchk mb nb (qb * nb) st.C st.C_colchk
      let pc2 := abft_checker_rowchk (mb * nb) qb nb pc1.1 st.C_rowchk
      { st with
          A := pa.1, A_colchk_r := pa.2,
          B := pb.1, B_rowchk_r := pb.2,
          C := pc2.1, C_colchk_r := pc1.2, C_rowchk_r := pc2.2 }
    else st
  let trace1 : List KOp :=
    if FT && CHECK_BEFORE then
      [KOp.checkColA, KOp.checkRowB, KOp.checkColC, KOp.checkRowC]
    else []
  -- the main data GEMM, issued unconditionally with the caller's arguments
  let st2 := { st1 with C := magmaGemmNN alpha st1.A st1.B beta st1.C }
  -- FT: the two checksum-propagation GEMMs on stream2
  let st3 :=
    if FT then
      { st2 with
          C_colchk := magmaGemmNN alpha st1.A_colchk st1.B beta st1.C_colchk,
          C_rowchk := magmaGemmNN alpha st1.A st1.B_rowchk beta st1.C_rowchk }
    else st2
  let trace3 : List KOp :=
    if FT then [KOp.gemmColchk alpha beta, KOp.gemmRowchk alpha beta] else []
  -- FT && CHECK_AFTER: verify both checksum shadows of C
  let st4 :=
    if FT && CHECK_AFTER then
      let qc1 := abft_checker_colchk mb nb (qb * nb) st3.C st3.C_colchk
      let qc2 := abft_checker_rowchk (mb * nb) qb nb qc1.1 st3.C_rowchk
      { st3 with C := qc2.1, C_colchk_r := qc1.2, C_rowchk_r := qc2.2 }
    else st3
  let trace4 : List KOp :=
    if FT && CHECK_AFTER then [KOp.checkColC, KOp.checkRowC] else []
  (st4, trace1 ++ [KOp.gemmData alpha beta] ++ trace3 ++ trace4)

/-! ### The protected SYRK (`magma-1.6.2-enhanced/magmablas/dsyrkFT.cpp`)

`A` is `n × m` (n rows, m cols), `C` is `n × n`, `checksumA`/`checksumC` are
the `2 × m` / `2 × n` stored checksum blocks, `chk1`/`chk2` the recompute
buffers written under `FT && VERIFY`. -/

/-- The `magma_uplo_t` argument (`MagmaLower` / `MagmaUpper`). -/
inductive MagmaUplo where
  | lower
  | upper
  deriving DecidableEq, Repr

/-- The `magma_trans_t` argument. -/
inductive MagmaTransOpt where
  | noTrans
  | trans
  | conjTrans
  deriving DecidableEq, Repr

/-- The semantics of the BLAS oracle `magma_dgemm` with `transA = MagmaNoTrans`,
`transB = MagmaTrans`: `C := alpha * A * Bᵀ + beta * C`. -/
def magmaGemmNT {m k n : ℕ} (alpha : ℚ) (A : Matrix (Fin m) (Fin k) ℚ)
    (B : Matrix (Fin n) (Fin k) ℚ) (beta : ℚ) (C : Matrix (Fin m) (Fin n) ℚ) :
    Matrix (Fin m) (Fin n) ℚ :=
  alpha • (A * Bᵀ) + beta • C

/-- The buffers `dsyrkFT` writes: the data `C`, the stored checksum block of
`C`, and the two recompute buffers. -/
structure SyrkOut (n m : ℕ) where
  C : Matrix (Fin n) (Fin n) ℚ
  checksumC : Matrix (Fin 2) (Fin n) ℚ
  chk1 : Fin m → ℚ
  chk2 : Fin m → ℚ

/-- Embedding of `dsyrkFT` (`magma-1.6.2-enhanced/magmablas/dsyrkFT.cpp`).
Under `FT && VERIFY` the two checksums of `A` are recomputed into
`chk1`/`chk2` (the correction call is commented out in the source).  The data
update is the unconditional `magma_dgemm(MagmaNoTrans, MagmaTrans, n, n, m,
-1, A, A, 1, C)` — the commented-out `magma_dsyrk` branch is dead code, and
none of `uplo`, `trans`, `alpha`, `beta` is ever read.  Under `FT` the
checksum block propagates by the same GEMM with the same hardcoded scalars. -/
def dsyrkFT (n m : ℕ) (uplo : MagmaUplo) (transOpt : MagmaTransOpt)
    (alpha beta : ℚ) (A : Matrix (Fin n) (Fin m) ℚ)
    (C : Matrix (Fin n) (Fin n) ℚ) (checksumA : Matrix (Fin 2) (Fin m) ℚ)
    (checksumC : Matrix (Fin 2) (Fin n) ℚ) (chk1 chk2 : Fin m → ℚ)
    (FT VERIFY : Bool) : SyrkOut n m :=
  { C := magmaGemmNT (-1 : ℚ) A A (1 : ℚ) C
    checksumC :=
      if FT then magmaGemmNT (-1 : ℚ) checksumA A (1 : ℚ) checksumC
      else checksumC
    chk1 := if FT && VERIFY then fun j => colSum1 n m A j else chk1
    chk2 := if FT && VERIFY then fun j => colSum2 n m A j else chk2 }

/-! ### The protected Cholesky checksum update
(`magma-1.6.2-online/magmablas/dpotrfFT.cpp`)

After `dpotrf` produces the factor `L` in-place, the stored `2 × n` checksum
block is updated, one checksum row at a time, by the column recurrence
`chk[i] := chk[i] / L[i,i]; chk[j] := chk[j] - chk[i] * L[j,i] (j > i)`
(a `daxpy` against column `i` of `L` below the diagonal). -/

/-- A single column step of the checksum elimination recurrence at column `i`:
divide entry `i` by the pivot, then subtract multiples of column `i` of `L`
from the trailing entries. -/
def cholStep (n : ℕ) (L : Matrix (Fin n) (Fin n) ℚ) (i : Fin n)
    (chk : Fin n → ℚ) : Fin n → ℚ :=
  fun j =>
    if j = i then chk i / L i i
    else if (i : ℕ) < (j : ℕ) then chk j - chk i / L i i * L j i
    else chk j

/-- Embedding of the checksum-update phase of `dpotrfFT`: the source runs the
full column loop on checksum row 0 (`chksum + i*chksum_ld`), then the full
column loop on checksum row 1 (`chksum + i*chksum_ld + 1`). -/
def dpotrfFT_chkUpdate (n : ℕ) (L : Matrix (Fin n) (Fin n) ℚ)
    (chksum : Fin 2 → Fin n → ℚ) : Fin 2 → Fin n → ℚ :=
  fun s => (List.finRange n).foldl (fun c i => cholStep n L i c) (chksum s)

/-- The spec's formulation of the same update: traverse the columns once, in
order, and at each column `k` apply the elimination step to both checksum
vectors before moving to column `k + 1`. -/
def cholRecurrenceSpec (n : ℕ) (L : Matrix (Fin n) (Fin n) ℚ)
    (chksum : Fin 2 → Fin n → ℚ) : Fin 2 → Fin n → ℚ :=
  (List.finRange n).foldl (fun c i => fun s => cholStep n L i (c s)) chksum

/-! ### The protected TRSM (`old_source_code/magma-1.6.2-enhanced-fermi/magmablas/dtrsmFT.cpp`)

The main solve is `magma_dtrsm(MagmaRight, MagmaLower, MagmaTrans,
MagmaNonUnit, m, n, 1, A, B)` on the GPU; under `FT` the checksum block of
`B` is updated by `blasf77_dtrsm` with the identical flags on the
`(m/n)*2 × n` checksum block, against the host mirror `work` of the
triangular factor.  The two TRSMs are external BLAS oracles; their contract
(side Right, uplo Lower, transA Trans, diag NonUnit, alpha 1) is
`X * Aᵀ = B`. -/

/-- The BLAS TRSM oracle contract for side `Right`, uplo `Lower`,
transA `Trans`, diag `NonUnit`, `alpha = 1`: the output `X` overwrites `B`
and satisfies `X * Aᵀ = B`. -/
def trsmRightLowerTrans (n rows : ℕ) (A : Matrix (Fin n) (Fin n) ℚ)
    (B X : Matrix (Fin rows) (Fin n) ℚ) : Prop :=
  X * Aᵀ = B

/-- Embedding of `dtrsmFT` with `FT` enabled (`B` has `m = q * n` rows, its
checksum block `2 * q` rows): the main solve maps `B` to `Bout`, and the small
host TRSM with the same flags maps the checksum block `chkB` to `chkBout`
against the host mirror `work`. -/
def dtrsmFT_rel (q n : ℕ) (A work : Matrix (Fin n) (Fin n) ℚ)
    (B Bout : Matrix (Fin (q * n)) (Fin n) ℚ)
    (chkB chkBout : Matrix (Fin (2 * q)) (Fin n) ℚ) : Prop :=
  trsmRightLowerTrans n (q * n) A B Bout ∧
  trsmRightLowerTrans n (2 * q) work chkB chkBout

/-! ### Flat-buffer model of `abft_dgemm`

`abft_dgemm` receives raw pointers and caller-supplied `int` dimensions and
strides, and performs no validation of them whatsoever.  To reason about calls
with inconsistent dimensions (which the `Fin`-indexed model cannot even
express), this second embedding works on flat column-major buffers `ℕ → ℚ`
with explicit leading dimensions.  A write address `p` is interpreted by its
canonical decomposition `(p % ld, p / ld)`; the theorems only instantiate
consistent output strides (`ld ≥ rows`), where this is exact. -/

/-- Flat column-major GEMM (`transA = transB = NoTrans`):
`c[i + j*ldc] := alpha * sum_l a[i + l*lda] * b[l + j*ldb] + beta * c[i + j*ldc]`
for `i < m`, `j < n`; all other addresses retain their old contents. -/
def flatGemmNN (m n k : ℕ) (alpha : ℚ) (a : ℕ → ℚ) (lda : ℕ) (b : ℕ → ℚ)
    (ldb : ℕ) (beta : ℚ) (c : ℕ → ℚ) (ldc : ℕ) : ℕ → ℚ :=
  fun p =>
    if 0 < ldc ∧ p % ldc < m ∧ p / ldc < n then
      alpha * ∑ l ∈ Finset.range k, a (p % ldc + l * lda) * b (l + p / ldc * ldb)
        + beta * c p
    else c p

/-- Modelled from the spec: the recomputed column checksum of weight row `s`,
block `q`, column `j` of a flat buffer. -/
def flatColChkVal (nb : ℕ) (data : ℕ → ℚ) (ld : ℕ) (s q j : ℕ) : ℚ :=
  ∑ r ∈ Finset.range nb, chkw s r * data (q * nb + r + j * ld)

/-- Modelled from the spec: the recomputed row checksum of weight column `s`,
row `i`, block `q` of a flat buffer. -/
def flatRowChkVal (nb : ℕ) (data : ℕ → ℚ) (ld : ℕ) (s i q : ℕ) : ℚ :=
  ∑ r ∈ Finset.range nb, chkw s r * data (i + (q * nb + r) * ld)

/-- Modelled from the spec: recompute the full column-checksum block of an
`mr × mc` flat matrix into the `_r` buffer (dims `2*(mr/nb) × mc`). -/
def flatColChkRecomp (mr mc nb : ℕ) (data : ℕ → ℚ) (ld : ℕ) (chkR : ℕ → ℚ)
    (ldchk : ℕ) : ℕ → ℚ :=
  fun p =>
    if 0 < ldchk ∧ p % ldchk < 2 * (mr / nb) ∧ p / ldchk < mc then
      flatColChkVal nb data ld (p % ldchk % 2) (p % ldchk / 2) (p / ldchk)
    else chkR p

/-- Modelled from the spec: recompute the full row-checksum block of an
`mr × mc` flat matrix into the `_r` buffer (dims `mr × 2*(mc/nb)`). -/
def flatRowChkRecomp (mr mc nb : ℕ) (data : ℕ → ℚ) (ld : ℕ) (chkR : ℕ → ℚ)
    (ldchk : ℕ) : ℕ → ℚ :=
  fun p =>
    if 0 < ldchk ∧ p % ldchk < mr ∧ p / ldchk < 2 * (mc / nb) then
      flatRowChkVal nb data ld (p / ldchk % 2) (p % ldchk) (p / ldchk / 2)
    else chkR p

/-- Modelled from the spec: the flagged (block, column) positions of a flat
column-checksum comparison. -/
def flatColFlagged (mr mc nb : ℕ) (data : ℕ → ℚ) (ld : ℕ) (chk : ℕ → ℚ)
    (ldchk : ℕ) : List (ℕ × ℕ) :=
  ((List.range (mr / nb)).flatMap fun q => (List.range mc).map fun j => (q, j)).filter
    fun qj =>
      decide (1/10 < |flatColChkVal nb data ld 0 qj.1 qj.2 -
          chk (2 * qj.1 + qj.2 * ldchk)| ∧
        1/10 < |flatColChkVal nb data ld 1 qj.1 qj.2 -
          chk (2 * qj.1 + 1 + qj.2 * ldchk)|)

/-- Modelled from the spec: the flagged (row, block) positions of a flat
row-checksum comparison. -/
def flatRowFlagged (mr mc nb : ℕ) (data : ℕ → ℚ) (ld : ℕ) (chk : ℕ → ℚ)
    (ldchk : ℕ) : List (ℕ × ℕ) :=
  ((List.range mr).flatMap fun i => (List.range (mc / nb)).map fun q => (i, q)).filter
    fun iq =>
      decide (1/10 < |flatRowChkVal nb data ld 0 iq.1 iq.2 -
          chk (iq.1 + 2 * iq.2 * ldchk)| ∧
        1/10 < |flatRowChkVal nb data ld 1 iq.1 iq.2 -
          chk (iq.1 + (2 * iq.2 + 1) * ldchk)|)

/-- Modelled from the spec: `abft_checker_colchk` on flat buffers
(implementation not under the sources): recompute into the `_r` buffer and
correct the single flagged element, if exactly one is flagged. -/
def flatCheckerCol (mr mc nb : ℕ) (data : ℕ → ℚ) (ld : ℕ) (chk : ℕ → ℚ)
    (ldchk : ℕ) (chkR : ℕ → ℚ) (ldchkR : ℕ) : (ℕ → ℚ) × (ℕ → ℚ) :=
  (match flatColFlagged mr mc nb data ld chk ldchk with
    | [qj] =>
        let d1 := chk (2 * qj.1 + qj.2 * ldchk) - flatColChkVal nb data ld 0 qj.1 qj.2
        let d2 := chk (2 * qj.1 + 1 + qj.2 * ldchk) - flatColChkVal nb data ld 1 qj.1 qj.2
        let rloc : ℤ := round (d2 / d1) - 1
        fun p =>
          if (p : ℤ) = (qj.1 * nb : ℕ) + rloc + ((qj.2 * ld : ℕ) : ℤ) then data p + d1
          else data p
    | _ => data,
   flatColChkRecomp mr mc nb data ld chkR ldchkR)

/-- Modelled from the spec: `abft_checker_rowchk` on flat buffers
(implementation not under the sources). -/
def flatCheckerRow (mr mc nb : ℕ) (data : ℕ → ℚ) (ld : ℕ) (chk : ℕ → ℚ)
    (ldchk : ℕ) (chkR : ℕ → ℚ) (ldchkR : ℕ) : (ℕ → ℚ) × (ℕ → ℚ) :=
  (match flatRowFlagged mr mc nb data ld chk ldchk with
    | [iq] =>
        let d1 := chk (iq.1 + 2 * iq.2 * ldchk) - flatRowChkVal nb data ld 0 iq.1 iq.2
        let d2 := chk (iq.1 + (2 * iq.2 + 1) * ldchk) - flatRowChkVal nb data ld 1 iq.1 iq.2
        let cloc : ℤ := round (d2 / d1) - 1
        fun p =>
          if (p : ℤ) = (iq.1 : ℕ) + ((iq.2 * nb : ℕ) + cloc) * (ld : ℕ) then data p + d1
          else data p
    | _ => data,
   flatRowChkRecomp mr mc nb data ld chkR ldchkR)

/-- The flat buffers handed to `abft_dgemm`: three data matrices, four stored
checksum shadows each... (only the ones its `NoTrans` path touches are listed,
plus the `_r` recompute buffers it writes). -/
structure FlatBufs where
  dA : ℕ → ℚ
  dB : ℕ → ℚ
  dC : ℕ → ℚ
  dA_colchk : ℕ → ℚ
  dA_colchk_r : ℕ → ℚ
  dB_rowchk : ℕ → ℚ
  dB_rowchk_r : ℕ → ℚ
  dC_colchk : ℕ → ℚ
  dC_rowchk : ℕ → ℚ
  dC_colchk_r : ℕ → ℚ
  dC_rowchk_r : ℕ → ℚ

/-- The caller-supplied leading dimensions of the flat buffers. -/
structure FlatLds where
  ldda : ℕ
  lddb : ℕ
  lddc : ℕ
  ldda_colchk : ℕ
  ldda_colchk_r : ℕ
  lddb_rowchk : ℕ
  lddb_rowchk_r : ℕ
  lddc_colchk : ℕ
  lddc_rowchk : ℕ
  lddc_colchk_r : ℕ
  lddc_rowchk_r : ℕ

/-- One kernel launch of the flat `abft_dgemm`, with the caller's raw
dimension and stride arguments recorded. -/
inductive KOpF where
  | gemmData (m n k lda ldb ldc : ℕ) (alpha beta : ℚ)
  | gemmColchk (m n k : ℕ) (alpha beta : ℚ)
  | gemmRowchk (m n k : ℕ) (alpha beta : ℚ)
  | checkColA
  | checkRowB
  | checkColC
  | checkRowC
  deriving DecidableEq, Repr

/-- Whether a flat kernel launch is the main data GEMM. -/
def KOpF.isData : KOpF → Bool
  | KOpF.gemmData _ _ _ _ _ _ _ _ => true
  | _ => false

/-- Embedding of `abft_dgemm` on flat buffers (`transA = transB =
MagmaNoTrans`), mirroring the source's order of kernel launches.  Note there
is no validation of `m`, `n`, `k` or any stride anywhere: the function is
total, returns no error, and issues its kernels for arbitrary (also
inconsistent) dimension arguments. -/
def abft_dgemm_flat (m n k nb : ℕ) (FT CHECK_BEFORE CHECK_AFTER : Bool)
    (alpha beta : ℚ) (ld : FlatLds) (bufs : FlatBufs) :
    FlatBufs × List KOpF :=
  let bufs1 :=
    if FT && CHECK_BEFORE then
      let pa := flatCheckerCol m k nb bufs.dA ld.ldda bufs.dA_colchk
        ld.ldda_colchk bufs.dA_colchk_r ld.ldda_colchk_r
      let pb := flatCheckerRow k n nb bufs.dB ld.lddb bufs.dB_rowchk
        ld.lddb_rowchk bufs.dB_rowchk_r ld.lddb_rowchk_r
      let pc1 := flatCheckerCol m n nb bufs.dC ld.lddc bufs.dC_colchk
        ld.lddc_colchk bufs.dC_colchk_r ld.lddc_colchk_r
      let pc2 := flatCheckerRow m n nb pc1.1 ld.lddc bufs.dC_rowchk
        ld.lddc_rowchk bufs.dC_rowchk_r ld.lddc_rowchk_r
      { bufs with
          dA := pa.1, dA_colchk_r := pa.2,
          dB := pb.1, dB_rowchk_r := pb.2,
          dC := pc2.1, dC_colchk_r := pc1.2, dC_rowchk_r := pc2.2 }
    else bufs
  let trace1 : List KOpF :=
    if FT && CHECK_BEFORE then
      [KOpF.checkColA, KOpF.checkRowB, KOpF.checkColC, KOpF.checkRowC]
    else []
  let bufs2 := { bufs1 with
    dC := flatGemmNN m n k alpha bufs1.dA ld.ldda bufs1.dB ld.lddb beta
      bufs1.dC ld.lddc }
  let bufs3 :=
    if FT then
      { bufs2 with
          dC_colchk := flatGemmNN (m / nb * 2) n k alpha bufs1.dA_colchk
            ld.ldda_colchk bufs1.dB ld.lddb beta bufs1.dC_colchk ld.lddc_colchk,
          dC_rowchk := flatGemmNN m (n / nb * 2) k alpha bufs1.dA ld.ldda
            bufs1.dB_rowchk ld.lddb_rowchk beta bufs1.dC_rowchk ld.lddc_rowchk }
    else bufs2
  let trace3 : List KOpF :=
    if FT then
      [KOpF.gemmColchk (m / nb * 2) n k alpha beta,
       KOpF.gemmRowchk m (n / nb * 2) k alpha beta]
    else []
  let bufs4 :=
    if FT && CHECK_AFTER then
      let qc1 := flatCheckerCol m n nb bufs3.dC ld.lddc bufs3.dC_colchk
        ld.lddc_colchk bufs3.dC_colchk_r ld.lddc_colchk_r
      let qc2 := flatCheckerRow m n nb qc1.1 ld.lddc bufs3.dC_rowchk
        ld.lddc_rowchk bufs3.dC_rowchk_r ld.lddc_rowchk_r
      { bufs3 with dC := qc2.1, dC_colchk_r := qc1.2, dC_rowchk_r := qc2.2 }
    else bufs3
  let trace4 : List KOpF :=
    if FT && CHECK_AFTER then [KOpF.checkColC, KOpF.checkRowC] else []
  (bufs4,
   trace1 ++ [KOpF.gemmData m n k ld.ldda ld.lddb ld.lddc alpha beta] ++
     trace3 ++ trace4)

/-- The uncorrupted matrix of the C4 counterexample. -/
def c4orig : Matrix (Fin 2) (Fin 2) ℚ := !![0, 0; 0, 0]

/-- The C4 counterexample data: both columns corrupted (by `+1` at row 0 of
column 0 and row 0 of column 1). -/
def c4corrupt : Matrix (Fin 2) (Fin 2) ℚ := !![1, 1; 0, 0]

/-- The concrete consistent one-block state used by the `abft_dgemm`
witnesses: `A = [[2]]`, `B = [[3]]`, `C = [[5]]`, every stored checksum the
true encoding, and zeroed `_r` buffers. -/
def stw : GemmSt 1 1 1 1 where
  A := !![2]
  B := !![3]
  C := !![5]
  A_colchk := !![2; 2]
  A_rowchk := !![2, 2]
  A_colchk_r := !![0; 0]
  A_rowchk_r := !![0, 0]
  B_colchk := !![3; 3]
  B_rowchk := !![3, 3]
  B_colchk_r := !![0; 0]
  B_rowchk_r := !![0, 0]
  C_colchk := !![5; 5]
  C_rowchk := !![5, 5]
  C_colchk_r := !![0; 0]
  C_rowchk_r := !![0, 0]

/-- The leading dimensions of the C7 counterexample call: the data strides
are consistent (`1` for the `1 × 1` data views) but the column-checksum view
of `C` — which has `2 * (m/nb) = 2` rows — is passed stride
`lddc_colchk = 1 < 2`, a stride that does not agree with the checksum view. -/
def c7lds : FlatLds where
  ldda := 1
  lddb := 1
  lddc := 1
  ldda_colchk := 2
  ldda_colchk_r := 2
  lddb_rowchk := 1
  lddb_rowchk_r := 1
  lddc_colchk := 1
  lddc_rowchk := 1
  lddc_colchk_r := 2
  lddc_rowchk_r := 1

/-- The buffers of the C7 counterexample call: `A = [1]`, `B = [1]`,
`C = [0]`, checksum shadows of `A`/`B` consistent. -/
def c7bufs : FlatBufs where
  dA := fun _ => 1
  dB := fun _ => 1
  dC := fun _ => 0
  dA_colchk := fun _ => 1
  dA_colchk_r := fun _ => 0
  dB_rowchk := fun _ => 1
  dB_rowchk_r := fun _ => 0
  dC_colchk := fun _ => 0
  dC_rowchk := fun _ => 0
  dC_colchk_r := fun _ => 0
  dC_rowchk_r := fun _ => 0

/-! ## Theorems -/

@[simp] theorem chkw_zero (r : ℕ) : chkw 0 r = 1 := rfl

@[simp] theorem chkw_one (r : ℕ) : chkw 1 r = (r : ℚ) + 1 := rfl

/-- Linearity of the column encoder through a GEMM update: encoding the GEMM
result equals performing the GEMM on the encoded left operand.  This is the
algebraic identity behind checksum propagation. -/
theorem colEncode_gemm (mb nb k n : ℕ) (alpha beta : ℚ)
    (A : Matrix (Fin (mb * nb)) (Fin k) ℚ) (B : Matrix (Fin k) (Fin n) ℚ)
    (C : Matrix (Fin (mb * nb)) (Fin n) ℚ) :
    colEncode mb nb n (magmaGemmNN alpha A B beta C) =
      magmaGemmNN alpha (colEncode mb nb k A) B beta (colEncode mb nb n C) := by
  simp only [colEncode, magmaGemmNN, Matrix.mul_add, Matrix.mul_smul,
    Matrix.mul_assoc]

/-- Linearity of the row encoder through a GEMM update. -/
theorem rowEncode_gemm (m k qb nb : ℕ) (alpha beta : ℚ)
    (A : Matrix (Fin m) (Fin k) ℚ) (B : Matrix (Fin k) (Fin (qb * nb)) ℚ)
    (C : Matrix (Fin m) (Fin (qb * nb)) ℚ) :
    rowEncode m qb nb (magmaGemmNN alpha A B beta C) =
      magmaGemmNN alpha A (rowEncode k qb nb B) beta (rowEncode m qb nb C) := by
  simp only [rowEncode, magmaGemmNN, Matrix.add_mul, Matrix.smul_mul,
    Matrix.mul_assoc]

theorem corruptAt_apply (m n : ℕ) (C : Matrix (Fin m) (Fin n) ℚ) (r : Fin m)
    (j : Fin n) (e : ℚ) (i : Fin m) (c : Fin n) :
    corruptAt m n C r j e i c = if i = r ∧ c = j then C i c + e else C i c := rfl

theorem colSum1_corruptAt (m n : ℕ) (C : Matrix (Fin m) (Fin n) ℚ) (r : Fin m)
    (j : Fin n) (e : ℚ) (c : Fin n) :
    colSum1 m n (corruptAt m n C r j e) c =
      colSum1 m n C c + if c = j then e else 0 := by
  simp only [colSum1, corruptAt_apply]
  by_cases hc : c = j
  · subst hc
    simp only [and_true, if_pos rfl]
    calc ∑ i : Fin m, (if i = r then C i c + e else C i c)
        = ∑ i : Fin m, (C i c + if i = r then e else 0) :=
          Finset.sum_congr rfl (fun i _ => by split_ifs <;> simp)
      _ = (∑ i : Fin m, C i c) + ∑ i : Fin m, (if i = r then e else 0) :=
          Finset.sum_add_distrib
      _ = (∑ i : Fin m, C i c) + e := by
          rw [Finset.sum_ite_eq' Finset.univ r fun _ => e]; simp
  · simp [hc]

theorem colSum2_corruptAt (m n : ℕ) (C : Matrix (Fin m) (Fin n) ℚ) (r : Fin m)
    (j : Fin n) (e : ℚ) (c : Fin n) :
    colSum2 m n (corruptAt m n C r j e) c =
      colSum2 m n C c + if c = j then ((r : ℚ) + 1) * e else 0 := by
  simp only [colSum2, corruptAt_apply]
  by_cases hc : c = j
  · subst hc
    simp only [and_true, if_pos rfl]
    calc ∑ i : Fin m, ((i : ℚ) + 1) * (if i = r then C i c + e else C i c)
        = ∑ i : Fin m, (((i : ℚ) + 1) * C i c +
            if i = r then ((i : ℚ) + 1) * e else 0) :=
          Finset.sum_congr rfl (fun i _ => by split_ifs <;> ring)
      _ = (∑ i : Fin m, ((i : ℚ) + 1) * C i c) +
            ∑ i : Fin m, (if i = r then ((i : ℚ) + 1) * e else 0) :=
          Finset.sum_add_distrib
      _ = (∑ i : Fin m, ((i : ℚ) + 1) * C i c) + ((r : ℚ) + 1) * e := by
          rw [Finset.sum_ite_eq' Finset.univ r fun i => ((i : ℚ) + 1) * e]; simp
  · simp [hc]

/-- The localized row of the kernel's division: when the recomputed-minus-stored
discrepancies are `e` and `(r + 1) * e` with `e ≠ 0`, the division puts the
corrupted row at exactly `r`. -/
theorem localized_row (m : ℕ) (r : Fin m) (e : ℚ) (he : e ≠ 0) :
    round (|((r : ℚ) + 1) * e| / |e|) - 1 = (r : ℤ) := by
  have habs : |((r : ℚ) + 1) * e| = ((r : ℚ) + 1) * |e| := by
    rw [abs_mul, abs_of_nonneg (by positivity : (0 : ℚ) ≤ (r : ℚ) + 1)]
  rw [habs, mul_div_assoc, div_self (abs_ne_zero.mpr he), mul_one]
  have : ((r : ℚ) + 1) = ((r : ℕ) + 1 : ℕ) := by push_cast; ring
  rw [this, round_natCast]
  push_cast
  ring

theorem detectAndCorrect_apply (m n : ℕ) (C : Matrix (Fin m) (Fin n) ℚ)
    (s1 s2 k1 k2 : Fin n → ℚ) (i : Fin m) (c : Fin n) :
    detectAndCorrectForSyrk m n C s1 s2 k1 k2 i c =
      if 1/10 < |k1 c - s1 c| then
        if (i : ℤ) = round (|k2 c - s2 c| / |k1 c - s1 c|) - 1 then
          C i c + (s1 c - k1 c)
        else C i c
      else C i c := rfl

/-- A column whose first-checksum discrepancy is within the `0.1` tolerance is
left untouched by the kernel: the guard fails, no division and no write
happen. -/
theorem detect_col_clean (m n : ℕ) (C : Matrix (Fin m) (Fin n) ℚ)
    (s1 s2 k1 k2 : Fin n → ℚ) (c : Fin n)
    (h : |k1 c - s1 c| ≤ 1/10) (i : Fin m) :
    detectAndCorrectForSyrk m n C s1 s2 k1 k2 i c = C i c := by
  rw [detectAndCorrect_apply, if_neg (not_lt.mpr h)]

/-- A column holding a single corruption of magnitude `e` (above tolerance) at
row `r`, checked against the pre-corruption checksums, is restored exactly. -/
theorem detect_col_restore (m n : ℕ) (C : Matrix (Fin m) (Fin n) ℚ)
    (s1 s2 k1 k2 : Fin n → ℚ) (c : Fin n) (c0 : Fin m → ℚ) (r : Fin m) (e : ℚ)
    (hcol : ∀ i, C i c = c0 i + if i = r then e else 0)
    (hs1 : s1 c = ∑ i : Fin m, c0 i)
    (hs2 : s2 c = ∑ i : Fin m, ((i : ℚ) + 1) * c0 i)
    (hk1 : k1 c = ∑ i : Fin m, C i c)
    (hk2 : k2 c = ∑ i : Fin m, ((i : ℚ) + 1) * C i c)
    (he : 1/10 < |e|) (i : Fin m) :
    detectAndCorrectForSyrk m n C s1 s2 k1 k2 i c = c0 i := by
  have hne : e ≠ 0 := fun h0 => by simp [h0] at he; linarith
  have hd1 : k1 c - s1 c = e := by
    rw [hk1, hs1]
    calc (∑ i : Fin m, C i c) - ∑ i : Fin m, c0 i
        = ∑ i : Fin m, (C i c - c0 i) := (Finset.sum_sub_distrib).symm
      _ = ∑ i : Fin m, (if i = r then e else 0) :=
          Finset.sum_congr rfl (fun i _ => by rw [hcol i]; ring)
      _ = e := by rw [Finset.sum_ite_eq' Finset.univ r fun _ => e]; simp
  have hd2 : k2 c - s2 c = ((r : ℚ) + 1) * e := by
    rw [hk2, hs2]
    calc (∑ i : Fin m, ((i : ℚ) + 1) * C i c) -
          ∑ i : Fin m, ((i : ℚ) + 1) * c0 i
        = ∑ i : Fin m, (((i : ℚ) + 1) * C i c - ((i : ℚ) + 1) * c0 i) :=
          (Finset.sum_sub_distrib).symm
      _ = ∑ i : Fin m, (if i = r then ((i : ℚ) + 1) * e else 0) :=
          Finset.sum_congr rfl (fun i _ => by rw [hcol i]; split_ifs <;> ring)
      _ = ((r : ℚ) + 1) * e := by
          rw [Finset.sum_ite_eq' Finset.univ r fun i => ((i : ℚ) + 1) * e]; simp
  rw [detectAndCorrect_apply, hd1, hd2, if_pos he, localized_row m r e hne]
  by_cases hi : i = r
  · subst hi
    rw [if_pos rfl, hcol i, if_pos rfl]
    linarith [hd1]
  · rw [if_neg (by simpa [Fin.ext_iff] using hi), hcol i, if_neg hi]
    ring

theorem colFlagged_consistent (mb nb n : ℕ)
    (data : Matrix (Fin (mb * nb)) (Fin n) ℚ) :
    colFlagged mb nb n data (colEncode mb nb n data) = [] := by
  apply List.filter_eq_nil_iff.mpr
  intro qj _
  simp

theorem rowFlagged_consistent (m qb nb : ℕ)
    (data : Matrix (Fin m) (Fin (qb * nb)) ℚ) :
    rowFlagged m qb nb data (rowEncode m qb nb data) = [] := by
  apply List.filter_eq_nil_iff.mpr
  intro iq _
  simp

/-- A checker run against consistent checksums flags nothing: the data is
untouched and the recomputed buffer holds the (identical) fresh encoding. -/
theorem abft_checker_colchk_consistent (mb nb n : ℕ)
    (data : Matrix (Fin (mb * nb)) (Fin n) ℚ) :
    abft_checker_colchk mb nb n data (colEncode mb nb n data) =
      (data, colEncode mb nb n data) := by
  unfold abft_checker_colchk
  rw [colFlagged_consistent]

/-- The row-checksum checker run against consistent checksums is a no-op on
the data. -/
theorem abft_checker_rowchk_consistent (m qb nb : ℕ)
    (data : Matrix (Fin m) (Fin (qb * nb)) ℚ) :
    abft_checker_rowchk m qb nb data (rowEncode m qb nb data) =
      (data, rowEncode m qb nb data) := by
  unfold abft_checker_rowchk
  rw [rowFlagged_consistent]

/-- With `FT = false` the whole protected GEMM reduces to the single
unprotected data GEMM: the trace holds exactly the main kernel launch and
every other buffer of the state is untouched, whatever the CHECK flags say. -/
theorem abft_dgemm_FT_off (mb kb qb nb : ℕ) (cb ca : Bool) (alpha beta : ℚ)
    (st : GemmSt mb kb qb nb) :
    abft_dgemm mb kb qb nb false cb ca alpha beta st =
      ({ st with C := magmaGemmNN alpha st.A st.B beta st.C },
       [KOp.gemmData alpha beta]) := by
  simp [abft_dgemm]

/-- With `FT = true` and checksums consistent on entry, the protected GEMM
computes the unprotected data result, propagates both checksum shadows of `C`
to exactly the fresh encodings of the new data, and the checkers (if enabled)
correct nothing. -/
theorem abft_dgemm_FT_consistent (mb kb qb nb : ℕ) (cb ca : Bool)
    (alpha beta : ℚ) (st : GemmSt mb kb qb nb)
    (h1 : st.A_colchk = colEncode mb nb (kb * nb) st.A)
    (h2 : st.B_rowchk = rowEncode (kb * nb) qb nb st.B)
    (h3 : st.C_colchk = colEncode mb nb (qb * nb) st.C)
    (h4 : st.C_rowchk = rowEncode (mb * nb) qb nb st.C) :
    ((abft_dgemm mb kb qb nb true cb ca alpha beta st).1.C =
        magmaGemmNN alpha st.A st.B beta st.C) ∧
    ((abft_dgemm mb kb qb nb true cb ca alpha beta st).1.C_colchk =
        colEncode mb nb (qb * nb) (magmaGemmNN alpha st.A st.B beta st.C)) ∧
    ((abft_dgemm mb kb qb nb true cb ca alpha beta st).1.C_rowchk =
        rowEncode (mb * nb) qb nb (magmaGemmNN alpha st.A st.B beta st.C)) := by
  cases cb <;> cases ca <;>
    simp [abft_dgemm, h1, h2, h3, h4, ← colEncode_gemm, ← rowEncode_gemm,
      abft_checker_colchk_consistent, abft_checker_rowchk_consistent]

/-! ### Helper lemmas -/

/-- Folding a pointwise-lifted step function over a list equals lifting the
fold of the plain step function pointwise. -/
theorem foldl_pointwise {σ ι κ : Type} (g : ι → σ → σ) (l : List ι)
    (c0 : κ → σ) :
    l.foldl (fun c i => fun s => g i (c s)) c0 =
      fun s => l.foldl (fun x i => g i x) (c0 s) := by
  induction l generalizing c0 with
  | nil => rfl
  | cons a t ih => simp only [List.foldl_cons]; exact ih _

/-! ### Claim theorems -/

theorem cholStep_apply_lt (n : ℕ) (L : Matrix (Fin n) (Fin n) ℚ)
    (i j : Fin n) (v : Fin n → ℚ) (h : (j : ℕ) < (i : ℕ)) :
    cholStep n L i v j = v j := by
  have h1 : j ≠ i := fun he => by rw [he] at h; omega
  have h2 : ¬ (i : ℕ) < (j : ℕ) := by omega
  simp [cholStep, h1, h2]

theorem cholStep_apply_self (n : ℕ) (L : Matrix (Fin n) (Fin n) ℚ)
    (i : Fin n) (v : Fin n → ℚ) :
    cholStep n L i v i = v i / L i i := by
  simp [cholStep]

theorem cholStep_apply_gt (n : ℕ) (L : Matrix (Fin n) (Fin n) ℚ)
    (i j : Fin n) (v : Fin n → ℚ) (h : (i : ℕ) < (j : ℕ)) :
    cholStep n L i v j = v j - v i / L i i * L j i := by
  have h1 : j ≠ i := fun he => by rw [he] at h; omega
  simp [cholStep, h1, h]

theorem cholPrefix_succ (n : ℕ) (L : Matrix (Fin n) (Fin n) ℚ)
    (v : Fin n → ℚ) (t : ℕ) (ht : t < n) :
    (((List.finRange n).take (t + 1)).foldl (fun c i => cholStep n L i c) v) =
      cholStep n L ⟨t, ht⟩
        (((List.finRange n).take t).foldl (fun c i => cholStep n L i c) v) := by
  have htake : (List.finRange n).take (t + 1) =
      (List.finRange n).take t ++ [⟨t, ht⟩] := by
    rw [List.take_succ]
    congr 1
    have h1 : (List.finRange n)[t]? = some ⟨t, ht⟩ := by
      rw [List.getElem?_eq_getElem (by simpa using ht)]
      simp [List.getElem_finRange]
    rw [h1]
    rfl
  rw [htake, List.foldl_append]
  rfl

/-- The forward-substitution invariant behind the `dpotrfFT` checksum
recurrence: after processing the first `t` columns, the entries below `t`
already satisfy the solved linear system (their row of `L` dotted with the
current vector recovers the original checksum entry), and every entry from
`t` on holds the original entry minus the partial elimination against the
processed columns. -/
theorem cholPrefix_invariant (n : ℕ) (L : Matrix (Fin n) (Fin n) ℚ)
    (v : Fin n → ℚ)
    (hlow : ∀ i j : Fin n, (i : ℕ) < (j : ℕ) → L i j = 0)
    (hdiag : ∀ i : Fin n, L i i ≠ 0) (t : ℕ) :
    (∀ j : Fin n, (j : ℕ) < t →
      ∑ i : Fin n,
        (((List.finRange n).take t).foldl (fun c i => cholStep n L i c) v) i *
          L j i = v j) ∧
    (∀ j : Fin n, t ≤ (j : ℕ) →
      (((List.finRange n).take t).foldl (fun c i => cholStep n L i c) v) j =
        v j - ∑ i ∈ Finset.univ.filter (fun i : Fin n => (i : ℕ) < t),
          (((List.finRange n).take t).foldl (fun c i => cholStep n L i c) v) i *
            L j i) := by
  induction t with
  | zero =>
      constructor
      · intro j hj
        omega
      · intro j _
        simp
  | succ t IH =>
      by_cases ht : t < n
      · rw [cholPrefix_succ n L v t ht]
        set u := ((List.finRange n).take t).foldl (fun c i => cholStep n L i c) v
          with hu
        set c : Fin n := ⟨t, ht⟩ with hc
        have hcval : (c : ℕ) = t := rfl
        have hstab : ∀ i : Fin n, (i : ℕ) < t → cholStep n L c u i = u i :=
          fun i hi => cholStep_apply_lt n L c i u (by omega)
        have hS : Finset.univ.filter (fun i : Fin n => (i : ℕ) < t + 1) =
            insert c (Finset.univ.filter (fun i : Fin n => (i : ℕ) < t)) := by
          ext x
          simp only [Finset.mem_filter, Finset.mem_univ, true_and,
            Finset.mem_insert]
          constructor
          · intro hx
            by_cases hxt : (x : ℕ) < t
            · exact Or.inr hxt
            · exact Or.inl (Fin.ext (by omega))
          · intro hx
            rcases hx with hx | hx
            · have : (x : ℕ) = t := by rw [hx, hcval]
              omega
            · omega
        have hcS : c ∉ Finset.univ.filter (fun i : Fin n => (i : ℕ) < t) := by
          simp only [Finset.mem_filter, Finset.mem_univ, true_and, hcval]
          omega
        have hsum_stab : ∀ j : Fin n,
            ∑ i ∈ Finset.univ.filter (fun i : Fin n => (i : ℕ) < t),
              cholStep n L c u i * L j i =
            ∑ i ∈ Finset.univ.filter (fun i : Fin n => (i : ℕ) < t),
              u i * L j i := by
          intro j
          refine Finset.sum_congr rfl (fun i hi => ?_)
          rw [hstab i (by simpa using hi)]
        have huc : cholStep n L c u c = u c / L c c := cholStep_apply_self n L c u
        have hucval : u c = v c -
            ∑ i ∈ Finset.univ.filter (fun i : Fin n => (i : ℕ) < t),
              u i * L c i :=
          IH.2 c (by omega)
        constructor
        · intro j hj1
          by_cases hjt : (j : ℕ) < t
          · have hcongr : ∑ i : Fin n, cholStep n L c u i * L j i =
                ∑ i : Fin n, u i * L j i := by
              refine Finset.sum_congr rfl (fun i _ => ?_)
              by_cases hi : (i : ℕ) < t
              · rw [hstab i hi]
              · rw [hlow j i (by omega), mul_zero, mul_zero]
            rw [hcongr]
            exact IH.1 j hjt
          · have hjc : j = c := Fin.ext (by omega)
            have hjval : (j : ℕ) = t := by rw [hjc, hcval]
            have htrunc : ∑ i : Fin n, cholStep n L c u i * L j i =
                ∑ i ∈ Finset.univ.filter (fun i : Fin n => (i : ℕ) < t + 1),
                  cholStep n L c u i * L j i := by
              refine (Finset.sum_subset (Finset.subset_univ _) ?_).symm
              intro x _ hx
              simp only [Finset.mem_filter, Finset.mem_univ, true_and] at hx
              rw [hlow j x (by omega), mul_zero]
            rw [htrunc, hS, Finset.sum_insert hcS, hsum_stab, hjc, huc,
              div_mul_cancel₀ _ (hdiag c), hucval]
            ring
        · intro j hj
          have hcj : (c : ℕ) < (j : ℕ) := by omega
          have hstep : cholStep n L c u j = u j - u c / L c c * L j c :=
            cholStep_apply_gt n L c j u hcj
          rw [hstep, hS, Finset.sum_insert hcS, hsum_stab, huc,
            IH.2 j (by omega)]
          ring
      · have hle : n ≤ t := by omega
        have htake1 : (List.finRange n).take (t + 1) = List.finRange n :=
          List.take_of_length_le (by simpa using Nat.le_succ_of_le hle)
        have htake0 : (List.finRange n).take t = List.finRange n :=
          List.take_of_length_le (by simpa using hle)
        constructor
        · intro j hj
          have hjn := j.isLt
          have h := IH.1 j (by omega)
          rw [htake0] at h
          rwa [htake1]
        · intro j hj
          have hjn := j.isLt
          omega

/-- C5: For the Cholesky-protected factorization (lower-triangular factor
`L` with nonzero pivots), the checksum update of `dpotrfFT` (which runs the
full column loop on checksum row 0, then on row 1) coincides with the spec's
recurrence `chk[k] := chk[k] / L[k,k]; chk[k+1:] -= chk[k] * L[k+1:,k]`
applied to both checksum vectors independently, column after column (both
rows updated at column `k` before column `k+1` is touched) rather than in an
end-of-panel batch; and the updated vectors mirror the elimination applied to
the data columns: multiplying each updated checksum vector back by `Lᵀ`
recovers the stored pre-update checksums exactly. -/
theorem dpotrfFT_chk_recurrence_per_column (n : ℕ)
    (L : Matrix (Fin n) (Fin n) ℚ) (chksum : Fin 2 → Fin n → ℚ)
    (hlow : ∀ i j : Fin n, (i : ℕ) < (j : ℕ) → L i j = 0)
    (hdiag : ∀ i : Fin n, L i i ≠ 0) :
    dpotrfFT_chkUpdate n L chksum = cholRecurrenceSpec n L chksum ∧
    (∀ s : Fin 2, ∀ j : Fin n,
      ∑ i : Fin n, dpotrfFT_chkUpdate n L chksum s i * L j i = chksum s j) := by
  constructor
  · unfold dpotrfFT_chkUpdate cholRecurrenceSpec
    rw [foldl_pointwise]
  · intro s j
    have h := (cholPrefix_invariant n L (chksum s) hlow hdiag n).1 j j.isLt
    rwa [List.take_of_length_le (by simp)] at h

/-- C5 witness: the concrete lower-triangular factor `[[2,0],[1,3]]` with
nonzero pivots, instantiating `dpotrfFT_chk_recurrence_per_column`. -/
theorem dpotrfFT_chk_recurrence_per_column_w :
    (∀ i j : Fin 2, (i : ℕ) < (j : ℕ) →
      (!![(2 : ℚ), 0; 1, 3] : Matrix (Fin 2) (Fin 2) ℚ) i j = 0) ∧
    (∀ i : Fin 2, (!![(2 : ℚ), 0; 1, 3] : Matrix (Fin 2) (Fin 2) ℚ) i i ≠ 0) ∧
    dpotrfFT_chkUpdate 2 !![(2 : ℚ), 0; 1, 3] (fun _ _ => 6) =
      cholRecurrenceSpec 2 !![(2 : ℚ), 0; 1, 3] (fun _ _ => 6) :=
  ⟨by decide, by decide,
   (dpotrfFT_chk_recurrence_per_column 2 !![(2 : ℚ), 0; 1, 3] (fun _ _ => 6)
     (by decide) (by decide)).1⟩

/-- C6: For the TRSM-protected update of `B` with FT enabled, the checksum
block updates by the same triangular solve (same side/uplo/trans/diag flags,
same factor once the host mirror `work` holds `A`, as the callers arrange)
applied to the checksum rows, so that afterwards the stored checksum block
equals the column encoding of the solved data `Bout`. -/
theorem dtrsmFT_checksum_solve (q n : ℕ)
    (A work : Matrix (Fin n) (Fin n) ℚ)
    (B Bout : Matrix (Fin (q * n)) (Fin n) ℚ)
    (chkB chkBout : Matrix (Fin (2 * q)) (Fin n) ℚ)
    (hrel : dtrsmFT_rel q n A work B Bout chkB chkBout)
    (hw : work = A) (hdet : IsUnit A.det)
    (henc : chkB = colEncode q n n B) :
    chkBout = colEncode q n n Bout := by
  rw [hw] at hrel
  have hmain : Bout * Aᵀ = B := hrel.1
  have hchk : chkBout * Aᵀ = chkB := hrel.2
  have hdT : IsUnit (Aᵀ).det := by rwa [Matrix.det_transpose]
  have h2 : chkBout * Aᵀ = Wchk q n * Bout * Aᵀ := by
    rw [hchk, henc]
    show Wchk q n * B = Wchk q n * Bout * Aᵀ
    rw [Matrix.mul_assoc, hmain]
  calc chkBout = chkBout * (Aᵀ * (Aᵀ)⁻¹) := by
        rw [Matrix.mul_nonsing_inv _ hdT, Matrix.mul_one]
    _ = chkBout * Aᵀ * (Aᵀ)⁻¹ := by rw [Matrix.mul_assoc]
    _ = Wchk q n * Bout * Aᵀ * (Aᵀ)⁻¹ := by rw [h2]
    _ = Wchk q n * Bout * (Aᵀ * (Aᵀ)⁻¹) := by rw [Matrix.mul_assoc]
    _ = colEncode q n n Bout := by
        rw [Matrix.mul_nonsing_inv _ hdT, Matrix.mul_one, colEncode]

/-- C6 witness: a concrete `1 × 1`-block instance (`A = [[2]]`, `B = [[6]]`,
`Bout = [[3]]`) discharging every hypothesis of `dtrsmFT_checksum_solve`. -/
theorem dtrsmFT_checksum_solve_w :
    dtrsmFT_rel 1 1 !![(2 : ℚ)] !![(2 : ℚ)] !![(6 : ℚ)] !![(3 : ℚ)]
        !![(6 : ℚ); (6 : ℚ)] !![(3 : ℚ); (3 : ℚ)] ∧
    IsUnit (!![(2 : ℚ)]).det ∧
    !![(6 : ℚ); (6 : ℚ)] = colEncode 1 1 1 !![(6 : ℚ)] ∧
    !![(3 : ℚ); (3 : ℚ)] = colEncode 1 1 1 !![(3 : ℚ)] := by
  have hr : dtrsmFT_rel 1 1 !![(2 : ℚ)] !![(2 : ℚ)] !![(6 : ℚ)] !![(3 : ℚ)]
      !![(6 : ℚ); (6 : ℚ)] !![(3 : ℚ); (3 : ℚ)] := by
    constructor
    · show !![(3 : ℚ)] * (!![(2 : ℚ)])ᵀ = !![(6 : ℚ)]
      ext i j
      fin_cases i <;> fin_cases j <;>
        simp [Matrix.mul_apply, Fin.sum_univ_succ] <;> norm_num
    · show !![(3 : ℚ); (3 : ℚ)] * (!![(2 : ℚ)])ᵀ = !![(6 : ℚ); (6 : ℚ)]
      ext i j
      fin_cases i <;> fin_cases j <;>
        simp [Matrix.mul_apply, Fin.sum_univ_succ] <;> norm_num
  have hdet : IsUnit (!![(2 : ℚ)]).det := by
    rw [show (!![(2 : ℚ)]).det = 2 by simp [Matrix.det_fin_one]]
    exact isUnit_iff_ne_zero.mpr (by norm_num)
  have henc : !![(6 : ℚ); (6 : ℚ)] = colEncode 1 1 1 !![(6 : ℚ)] := by
    ext i j
    fin_cases i <;> fin_cases j <;>
      simp [colEncode, Wchk, chkw, Matrix.mul_apply, Fin.sum_univ_succ]
  exact ⟨hr, hdet, henc,
    dtrsmFT_checksum_solve 1 1 _ _ _ _ _ _ hr rfl hdet henc⟩

/-- C9: `dsyrkFT` reads none of its `uplo`, `trans`, `alpha`, `beta`
arguments: for every choice of them the data result on `C` is the hardcoded
`magma_dgemm(MagmaNoTrans, MagmaTrans, n, n, m, -1, A, A, 1, C)`, i.e.
`C - A * Aᵀ`. -/
theorem dsyrkFT_ignores_parameters (n m : ℕ) (uplo : MagmaUplo)
    (transOpt : MagmaTransOpt) (alpha beta : ℚ)
    (A : Matrix (Fin n) (Fin m) ℚ) (C : Matrix (Fin n) (Fin n) ℚ)
    (checksumA : Matrix (Fin 2) (Fin m) ℚ)
    (checksumC : Matrix (Fin 2) (Fin n) ℚ) (chk1 chk2 : Fin m → ℚ)
    (FT VERIFY : Bool) :
    (dsyrkFT n m uplo transOpt alpha beta A C checksumA checksumC chk1 chk2
        FT VERIFY).C = magmaGemmNT (-1 : ℚ) A A (1 : ℚ) C ∧
    (dsyrkFT n m uplo transOpt alpha beta A C checksumA checksumC chk1 chk2
        FT VERIFY).C = C - A * Aᵀ := by
  refine ⟨rfl, ?_⟩
  show magmaGemmNT (-1 : ℚ) A A (1 : ℚ) C = C - A * Aᵀ
  unfold magmaGemmNT
  rw [neg_smul, one_smul, one_smul, sub_eq_add_neg, add_comm]

/-- C10: with `FT = false` the protected GEMM performs exactly one
unprotected GEMM on the data buffer — the trace is the single main kernel
launch — and every checksum buffer (stored and recomputed, for `A`, `B` and
`C`) is left unchanged, whatever `CHECK_BEFORE` and `CHECK_AFTER` are. -/
theorem abft_dgemm_FT_off_frame (mb kb qb nb : ℕ) (cb ca : Bool)
    (alpha beta : ℚ) (st : GemmSt mb kb qb nb) :
    abft_dgemm mb kb qb nb false cb ca alpha beta st =
      ({ st with C := magmaGemmNN alpha st.A st.B beta st.C },
       [KOp.gemmData alpha beta]) := by
  simp [abft_dgemm]

/-- C2: a single corruption of magnitude `e` (above tolerance) at row `r` of
column `j`, verified against the pre-corruption checksums, produces
discrepancies `d1 = e` and `d2 = (r+1)*e`, the kernel localizes the row as
`round(d2/d1) - 1 = r`, and the correction (subtracting `d1` there) restores
the original matrix exactly. -/
theorem detect_correct_single_error (m n : ℕ)
    (C0 : Matrix (Fin m) (Fin n) ℚ) (r : Fin m) (j : Fin n) (e : ℚ)
    (he : 1/10 < |e|) :
    colSum1 m n (corruptAt m n C0 r j e) j - colSum1 m n C0 j = e ∧
    colSum2 m n (corruptAt m n C0 r j e) j - colSum2 m n C0 j =
      ((r : ℚ) + 1) * e ∧
    round (|colSum2 m n (corruptAt m n C0 r j e) j - colSum2 m n C0 j| /
      |colSum1 m n (corruptAt m n C0 r j e) j - colSum1 m n C0 j|) - 1 =
      (r : ℤ) ∧
    detectAndCorrectForSyrk m n (corruptAt m n C0 r j e)
      (colSum1 m n C0) (colSum2 m n C0)
      (colSum1 m n (corruptAt m n C0 r j e))
      (colSum2 m n (corruptAt m n C0 r j e)) = C0 := by
  have hne : e ≠ 0 := fun h0 => by simp [h0] at he; linarith
  have hd1 : colSum1 m n (corruptAt m n C0 r j e) j - colSum1 m n C0 j = e := by
    rw [colSum1_corruptAt, if_pos rfl]; ring
  have hd2 : colSum2 m n (corruptAt m n C0 r j e) j - colSum2 m n C0 j =
      ((r : ℚ) + 1) * e := by
    rw [colSum2_corruptAt, if_pos rfl]; ring
  refine ⟨hd1, hd2, ?_, ?_⟩
  · rw [hd1, hd2]
    exact localized_row m r e hne
  · ext i c
    by_cases hc : c = j
    · subst hc
      refine detect_col_restore m n _ _ _ _ _ c (fun i => C0 i c) r e
        (fun i => ?_) rfl rfl rfl rfl he i
      rw [corruptAt_apply]
      split_ifs with hir h1 h2 <;> simp_all
    · refine detect_col_clean m n _ _ _ _ _ c ?_ i |>.trans ?_
      · rw [colSum1_corruptAt, if_neg hc]
        simp
      · rw [corruptAt_apply, if_neg (fun hh => hc hh.2)]

/-- C2 witness: the spec's concrete scenario — the `4 × 4` identity matrix
with `5.0` injected at row 2 of column 1 — instantiating
`detect_correct_single_error`: `d1 = 5`, `d2 = 15`, localized row
`round(15/5) - 1 = 2`, and the correction restores the identity exactly. -/
theorem detect_correct_single_error_w :
    1/10 < |(5 : ℚ)| ∧
    (colSum1 4 4 (corruptAt 4 4 (1 : Matrix (Fin 4) (Fin 4) ℚ) 2 1 5) 1 -
        colSum1 4 4 (1 : Matrix (Fin 4) (Fin 4) ℚ) 1 = 5 ∧
      colSum2 4 4 (corruptAt 4 4 (1 : Matrix (Fin 4) (Fin 4) ℚ) 2 1 5) 1 -
        colSum2 4 4 (1 : Matrix (Fin 4) (Fin 4) ℚ) 1 = ((2 : ℚ) + 1) * 5 ∧
      round (|colSum2 4 4 (corruptAt 4 4 (1 : Matrix (Fin 4) (Fin 4) ℚ) 2 1 5) 1 -
          colSum2 4 4 (1 : Matrix (Fin 4) (Fin 4) ℚ) 1| /
        |colSum1 4 4 (corruptAt 4 4 (1 : Matrix (Fin 4) (Fin 4) ℚ) 2 1 5) 1 -
          colSum1 4 4 (1 : Matrix (Fin 4) (Fin 4) ℚ) 1|) - 1 = ((2 : Fin 4) : ℤ) ∧
      detectAndCorrectForSyrk 4 4 (corruptAt 4 4 (1 : Matrix (Fin 4) (Fin 4) ℚ) 2 1 5)
        (colSum1 4 4 (1 : Matrix (Fin 4) (Fin 4) ℚ))
        (colSum2 4 4 (1 : Matrix (Fin 4) (Fin 4) ℚ))
        (colSum1 4 4 (corruptAt 4 4 (1 : Matrix (Fin 4) (Fin 4) ℚ) 2 1 5))
        (colSum2 4 4 (corruptAt 4 4 (1 : Matrix (Fin 4) (Fin 4) ℚ) 2 1 5)) =
        (1 : Matrix (Fin 4) (Fin 4) ℚ)) :=
  ⟨by norm_num,
   detect_correct_single_error 4 4 (1 : Matrix (Fin 4) (Fin 4) ℚ) 2 1 5
     (by norm_num)⟩

/-- C8: a column whose first-checksum discrepancy `d1` is at or below the
`0.1` detection tolerance is skipped silently: the guard fails before the
division `d2/d1`, no row is localized and no element of the column is
written. -/
theorem corrector_silent_below_tolerance (m n : ℕ)
    (C : Matrix (Fin m) (Fin n) ℚ) (s1 s2 k1 k2 : Fin n → ℚ) (j : Fin n)
    (h : |k1 j - s1 j| ≤ 1/10) (i : Fin m) :
    detectAndCorrectForSyrk m n C s1 s2 k1 k2 i j = C i j := by
  rw [detectAndCorrect_apply, if_neg (not_lt.mpr h)]

/-- C8 witness: a column with `d1 = 1/20` (at most the tolerance) while
`d2 = 100` is left untouched. -/
theorem corrector_silent_below_tolerance_w :
    |(fun _ : Fin 1 => (1 : ℚ)/20) 0 - (fun _ : Fin 1 => (0 : ℚ)) 0| ≤ 1/10 ∧
    detectAndCorrectForSyrk 1 1 !![(7 : ℚ)] (fun _ => (0 : ℚ))
      (fun _ => (0 : ℚ)) (fun _ => (1 : ℚ)/20) (fun _ => (100 : ℚ)) 0 0 =
      !![(7 : ℚ)] 0 0 :=
  ⟨by norm_num [abs_le],
   corrector_silent_below_tolerance 1 1 !![(7 : ℚ)] (fun _ => (0 : ℚ))
     (fun _ => (0 : ℚ)) (fun _ => (1 : ℚ)/20) (fun _ => (100 : ℚ)) 0
     (by norm_num [abs_le]) 0⟩

/-- C4 counterexample: with two columns simultaneously beyond tolerance the
kernel does NOT refuse to correct — it modifies the data (there is no
`MultipleCorruption` report anywhere in the kernel), contradicting the claim
that the corrector is never invoked on a multiply-corrupted matrix. -/
theorem multiple_corruption_cex :
    1/10 < |colSum1 2 2 c4corrupt 0 - colSum1 2 2 c4orig 0| ∧
    1/10 < |colSum1 2 2 c4corrupt 1 - colSum1 2 2 c4orig 1| ∧
    detectAndCorrectForSyrk 2 2 c4corrupt (colSum1 2 2 c4orig)
      (colSum2 2 2 c4orig) (colSum1 2 2 c4corrupt)
      (colSum2 2 2 c4corrupt) ≠ c4corrupt := by
  refine ⟨?_, ?_, ?_⟩
  · simp [colSum1, c4corrupt, c4orig, Fin.sum_univ_succ]
    norm_num
  · simp [colSum1, c4corrupt, c4orig, Fin.sum_univ_succ]
    norm_num
  · intro h
    have h00 := congrFun (congrFun h 0) 0
    rw [detectAndCorrect_apply] at h00
    simp [colSum1, colSum2, c4corrupt, c4orig, Fin.sum_univ_succ] at h00
    norm_num at h00

/-- C4 (amended): with two (or more) corrupted columns — one corrupted entry
per column, each above tolerance — the kernel applies the single-column
correction to every flagged column independently, restoring the original
matrix; no `MultipleCorruption` report exists. -/
theorem detect_correct_two_corrupted_columns (m n : ℕ)
    (C0 : Matrix (Fin m) (Fin n) ℚ) (r1 r2 : Fin m) (j1 j2 : Fin n)
    (e1 e2 : ℚ) (hj : j1 ≠ j2) (he1 : 1/10 < |e1|) (he2 : 1/10 < |e2|) :
    detectAndCorrectForSyrk m n
      (corruptAt m n (corruptAt m n C0 r1 j1 e1) r2 j2 e2)
      (colSum1 m n C0) (colSum2 m n C0)
      (colSum1 m n (corruptAt m n (corruptAt m n C0 r1 j1 e1) r2 j2 e2))
      (colSum2 m n (corruptAt m n (corruptAt m n C0 r1 j1 e1) r2 j2 e2)) =
      C0 := by
  ext i c
  by_cases hc1 : c = j1
  · subst hc1
    refine detect_col_restore m n _ _ _ _ _ c (fun i => C0 i c) r1 e1
      (fun i => ?_) rfl rfl rfl rfl he1 i
    rw [corruptAt_apply, if_neg (fun hh => hj hh.2), corruptAt_apply]
    split_ifs with hir h1 h2 <;> simp_all
  · by_cases hc2 : c = j2
    · subst hc2
      refine detect_col_restore m n _ _ _ _ _ c (fun i => C0 i c) r2 e2
        (fun i => ?_) rfl rfl rfl rfl he2 i
      have hinner : corruptAt m n C0 r1 j1 e1 i c = C0 i c := by
        rw [corruptAt_apply, if_neg (fun hh => hc1 hh.2)]
      rw [corruptAt_apply, hinner]
      split_ifs with hir h1 h2 <;> simp_all
    · refine detect_col_clean m n _ _ _ _ _ c ?_ i |>.trans ?_
      · rw [show colSum1 m n (corruptAt m n (corruptAt m n C0 r1 j1 e1) r2 j2 e2) c =
            colSum1 m n C0 c by
          rw [colSum1_corruptAt, colSum1_corruptAt, if_neg hc2, if_neg hc1]; ring]
        norm_num
      · rw [corruptAt_apply, if_neg (fun hh => hc2 hh.2), corruptAt_apply,
          if_neg (fun hh => hc1 hh.2)]

/-- C4 (amended) witness: both corrupted columns of the concrete
two-corruption instance are corrected, restoring the zero matrix. -/
theorem detect_correct_two_corrupted_columns_w :
    (0 : Fin 2) ≠ (1 : Fin 2) ∧ 1/10 < |(1 : ℚ)| ∧
    detectAndCorrectForSyrk 2 2
      (corruptAt 2 2 (corruptAt 2 2 c4orig 0 0 1) 0 1 1)
      (colSum1 2 2 c4orig) (colSum2 2 2 c4orig)
      (colSum1 2 2 (corruptAt 2 2 (corruptAt 2 2 c4orig 0 0 1) 0 1 1))
      (colSum2 2 2 (corruptAt 2 2 (corruptAt 2 2 c4orig 0 0 1) 0 1 1)) =
      c4orig :=
  ⟨by norm_num [Fin.ext_iff], by norm_num,
   detect_correct_two_corrupted_columns 2 2 c4orig 0 0 0 1 1 1
     (by norm_num [Fin.ext_iff]) (by norm_num) (by norm_num)⟩

/-- C1: with FT enabled and checksums consistent on entry, the checksum
shadows of `C` are updated by the same linear transform as the data
(`C_colchk := alpha * A_colchk * B + beta * C_colchk` and
`C_rowchk := alpha * A * B_rowchk + beta * C_rowchk`, two smaller GEMMs), and
after the protected operation returns the stored checksums of `C` equal the
encoders applied fresh to the updated data — without the encoder having been
recomputed from the data during propagation. -/
theorem abft_dgemm_checksum_propagation (mb kb qb nb : ℕ) (cb ca : Bool)
    (alpha beta : ℚ) (st : GemmSt mb kb qb nb)
    (h1 : st.A_colchk = colEncode mb nb (kb * nb) st.A)
    (h2 : st.B_rowchk = rowEncode (kb * nb) qb nb st.B)
    (h3 : st.C_colchk = colEncode mb nb (qb * nb) st.C)
    (h4 : st.C_rowchk = rowEncode (mb * nb) qb nb st.C) :
    ((abft_dgemm mb kb qb nb true cb ca alpha beta st).1.C_colchk =
        magmaGemmNN alpha st.A_colchk st.B beta st.C_colchk) ∧
    ((abft_dgemm mb kb qb nb true cb ca alpha beta st).1.C_rowchk =
        magmaGemmNN alpha st.A st.B_rowchk beta st.C_rowchk) ∧
    ((abft_dgemm mb kb qb nb true cb ca alpha beta st).1.C_colchk =
        colEncode mb nb (qb * nb)
          (abft_dgemm mb kb qb nb true cb ca alpha beta st).1.C) ∧
    ((abft_dgemm mb kb qb nb true cb ca alpha beta st).1.C_rowchk =
        rowEncode (mb * nb) qb nb
          (abft_dgemm mb kb qb nb true cb ca alpha beta st).1.C) := by
  obtain ⟨hC, hcc, hcr⟩ :=
    abft_dgemm_FT_consistent mb kb qb nb cb ca alpha beta st h1 h2 h3 h4
  refine ⟨?_, ?_, ?_, ?_⟩
  · rw [hcc, h1, h3, colEncode_gemm]
  · rw [hcr, h2, h4, rowEncode_gemm]
  · rw [hcc, hC]
  · rw [hcr, hC]

theorem stw_A_colchk : stw.A_colchk = colEncode 1 1 (1 * 1) stw.A := by
  ext i j
  fin_cases i <;> fin_cases j <;>
    simp [stw, colEncode, Wchk, chkw, Matrix.mul_apply, Fin.sum_univ_succ]

theorem stw_B_rowchk : stw.B_rowchk = rowEncode (1 * 1) 1 1 stw.B := by
  ext i j
  fin_cases i <;> fin_cases j <;>
    simp [stw, rowEncode, Wchk, chkw, Matrix.mul_apply, Fin.sum_univ_succ]

theorem stw_C_colchk : stw.C_colchk = colEncode 1 1 (1 * 1) stw.C := by
  ext i j
  fin_cases i <;> fin_cases j <;>
    simp [stw, colEncode, Wchk, chkw, Matrix.mul_apply, Fin.sum_univ_succ]

theorem stw_C_rowchk : stw.C_rowchk = rowEncode (1 * 1) 1 1 stw.C := by
  ext i j
  fin_cases i <;> fin_cases j <;>
    simp [stw, rowEncode, Wchk, chkw, Matrix.mul_apply, Fin.sum_univ_succ]

/-- C1 witness: the consistent one-block state, with both CHECK flags on,
instantiating `abft_dgemm_checksum_propagation`. -/
theorem abft_dgemm_checksum_propagation_w :
    (stw.A_colchk = colEncode 1 1 (1 * 1) stw.A) ∧
    (stw.B_rowchk = rowEncode (1 * 1) 1 1 stw.B) ∧
    (stw.C_colchk = colEncode 1 1 (1 * 1) stw.C) ∧
    (stw.C_rowchk = rowEncode (1 * 1) 1 1 stw.C) ∧
    ((abft_dgemm 1 1 1 1 true true true 1 1 stw).1.C_colchk =
      colEncode 1 1 (1 * 1) (abft_dgemm 1 1 1 1 true true true 1 1 stw).1.C) :=
  ⟨stw_A_colchk, stw_B_rowchk, stw_C_colchk, stw_C_rowchk,
   (abft_dgemm_checksum_propagation 1 1 1 1 true true 1 1 stw stw_A_colchk
     stw_B_rowchk stw_C_colchk stw_C_rowchk).2.2.1⟩

/-- C3: with FT enabled and no corruption (checksums consistent on entry),
the data result of the protected GEMM is identical to the unprotected one —
the same single main GEMM, with the caller's scalars, is issued on the data
buffers in both cases, FT adding only the side computations on the separate
checksum buffers. -/
theorem abft_dgemm_FT_transparent (mb kb qb nb : ℕ) (cb ca : Bool)
    (alpha beta : ℚ) (st : GemmSt mb kb qb nb)
    (h1 : st.A_colchk = colEncode mb nb (kb * nb) st.A)
    (h2 : st.B_rowchk = rowEncode (kb * nb) qb nb st.B)
    (h3 : st.C_colchk = colEncode mb nb (qb * nb) st.C)
    (h4 : st.C_rowchk = rowEncode (mb * nb) qb nb st.C) :
    ((abft_dgemm mb kb qb nb true cb ca alpha beta st).1.C =
        (abft_dgemm mb kb qb nb false cb ca alpha beta st).1.C) ∧
    ((abft_dgemm mb kb qb nb true cb ca alpha beta st).1.C =
        magmaGemmNN alpha st.A st.B beta st.C) ∧
    ((abft_dgemm mb kb qb nb true cb ca alpha beta st).2.filter
        (fun o => KOp.isData o) =
      (abft_dgemm mb kb qb nb false cb ca alpha beta st).2.filter
        (fun o => KOp.isData o)) ∧
    ((abft_dgemm mb kb qb nb true cb ca alpha beta st).2.filter
        (fun o => KOp.isData o) = [KOp.gemmData alpha beta]) := by
  obtain ⟨hC, -, -⟩ :=
    abft_dgemm_FT_consistent mb kb qb nb cb ca alpha beta st h1 h2 h3 h4
  refine ⟨?_, hC, ?_, ?_⟩
  · rw [hC, abft_dgemm_FT_off]
  · cases cb <;> cases ca <;> simp [abft_dgemm, KOp.isData]
  · cases cb <;> cases ca <;> simp [abft_dgemm, KOp.isData]

/-- C3 witness: the consistent one-block state instantiating
`abft_dgemm_FT_transparent` with both CHECK flags on. -/
theorem abft_dgemm_FT_transparent_w :
    (stw.A_colchk = colEncode 1 1 (1 * 1) stw.A) ∧
    (stw.B_rowchk = rowEncode (1 * 1) 1 1 stw.B) ∧
    (stw.C_colchk = colEncode 1 1 (1 * 1) stw.C) ∧
    (stw.C_rowchk = rowEncode (1 * 1) 1 1 stw.C) ∧
    ((abft_dgemm 1 1 1 1 true true true 1 1 stw).1.C =
      (abft_dgemm 1 1 1 1 false true true 1 1 stw).1.C) :=
  ⟨stw_A_colchk, stw_B_rowchk, stw_C_colchk, stw_C_rowchk,
   (abft_dgemm_FT_transparent 1 1 1 1 true true 1 1 stw stw_A_colchk
     stw_B_rowchk stw_C_colchk stw_C_rowchk).1⟩

/-- C7 counterexample: a call whose checksum-view stride is inconsistent
(`lddc_colchk = 1` for a 2-row checksum view) does NOT fail with any
`DimensionMismatch`, does NOT return before working, and performs the main
GEMM on the data buffer: `dC[0]` is overwritten from `0` to `1` and the main
kernel is issued with the caller's unvalidated arguments.  `abft_dgemm`
contains no dimension validation and returns no error. -/
theorem abft_dgemm_no_dimension_check_cex :
    c7lds.lddc_colchk < 2 ∧
    (abft_dgemm_flat 1 1 1 1 true false false 1 0 c7lds c7bufs).1.dC 0 = 1 ∧
    c7bufs.dC 0 = 0 ∧
    (abft_dgemm_flat 1 1 1 1 true false false 1 0 c7lds c7bufs).2.filter
      (fun o => KOpF.isData o) = [KOpF.gemmData 1 1 1 1 1 1 1 0] := by
  refine ⟨by norm_num [c7lds], ?_, rfl, ?_⟩
  · simp [abft_dgemm_flat, flatGemmNN, c7lds, c7bufs]
  · simp [abft_dgemm_flat, KOpF.isData, c7lds]

/-- C7 (amended): `abft_dgemm` performs no dimension validation and has no
error path: for every call — with consistent or inconsistent dimensions and
strides — it unconditionally issues exactly one main data GEMM with the
caller's raw arguments; the spec's `DimensionMismatch` contract is not
realized in this code. -/
theorem abft_dgemm_always_issues_main_gemm (m n k nb : ℕ)
    (FT cb ca : Bool) (alpha beta : ℚ) (ld : FlatLds) (bufs : FlatBufs) :
    (abft_dgemm_flat m n k nb FT cb ca alpha beta ld bufs).2.filter
      (fun o => KOpF.isData o) =
      [KOpF.gemmData m n k ld.ldda ld.lddb ld.lddc alpha beta] := by
  cases FT <;> cases cb <;> cases ca <;> simp [abft_dgemm_flat, KOpF.isData]

end ABFT
